import Mathlib

/-!
# Verification of the `ray-tracing` core

Shallow embedding of the path-tracer core (`src/object.rs`, `src/material.rs`,
`src/render.rs`, `src/picture.rs`, `src/ray.rs`) over exact real arithmetic,
together with proofs about the intersection protocol, the material scattering
model, the frame scheduler and the pixel conversion.

Machine `f32` arithmetic is modelled by `ℝ` (exact reals); `u8`/`u32` indices
by `ℕ`.  Randomness (`random()`, `random_unit_vec`, `random_vec_in_unit_sphere`)
is modelled by explicit oracle parameters, so theorems quantify over every
possible random outcome.
-/

namespace RayTracing

/-- 3-component vector over ℝ, modelling `nalgebra::Vector3<f32>`.
Points (`Point3<f32>`) are modelled by the same type. -/
structure Vec3 where
  x : ℝ
  y : ℝ
  z : ℝ

instance : Add Vec3 := ⟨fun a b => ⟨a.x + b.x, a.y + b.y, a.z + b.z⟩⟩

instance : Sub Vec3 := ⟨fun a b => ⟨a.x - b.x, a.y - b.y, a.z - b.z⟩⟩

instance : Neg Vec3 := ⟨fun a => ⟨-a.x, -a.y, -a.z⟩⟩

instance : SMul ℝ Vec3 := ⟨fun r a => ⟨r * a.x, r * a.y, r * a.z⟩⟩

/-- Componentwise vector/scalar division, as in nalgebra. -/
noncomputable instance : HDiv Vec3 ℝ Vec3 := ⟨fun a r => ⟨a.x / r, a.y / r, a.z / r⟩⟩

/-- Model of `Vector3::dot`. -/
def Vec3.dot (a b : Vec3) : ℝ := a.x * b.x + a.y * b.y + a.z * b.z

/-- Model of `Vector3::magnitude_squared`. -/
def Vec3.magnitudeSquared (a : Vec3) : ℝ := a.dot a

/-- Model of `Vector3::magnitude` (Euclidean norm). -/
noncomputable def Vec3.magnitude (a : Vec3) : ℝ := Real.sqrt a.magnitudeSquared

/-- Model of `Vector3::normalize`: the vector divided by its norm. -/
noncomputable def Vec3.normalize (a : Vec3) : Vec3 := a / a.magnitude

/-- 2-component vector over ℝ, modelling `nalgebra::Vector2<f32>`
(sub-pixel sample offsets). -/
structure Vec2 where
  x : ℝ
  y : ℝ

/-- Model of `Ray` from `src/ray.rs`: origin plus (not necessarily unit) direction. -/
structure Ray where
  origin : Vec3
  direction : Vec3

/-- Model of `Ray::new`. -/
def Ray.new (origin direction : Vec3) : Ray := ⟨origin, direction⟩

/-- Model of `Ray::at`: `origin + direction * t`. -/
def Ray.at (r : Ray) (t : ℝ) : Vec3 := r.origin + t • r.direction

/-- Model of `Face` from `src/ray.rs`. -/
inductive Face where
  | Front
  | Back
deriving DecidableEq, Repr

/-- Model of `Hit` from `src/ray.rs`, restricted to the fields populated by
`Sphere::hit` in `src/object.rs` (the material binding of a hit is
modelled separately, as a function `Hit → Material`, where needed). -/
structure Hit where
  point : Vec3
  normal : Vec3
  face : Face
  t : ℝ

/-- A query range of ray parameters.  The Rust code is generic over
`R: RangeBounds<f32>` and only ever calls `t_rng.contains(&root)`, so the
range is modelled by its boolean membership test. -/
def TRange : Type := ℝ → Bool

/-- Model of `Sphere` from `src/object.rs` (fields `center`, `radius`). -/
structure Sphere where
  center : Vec3
  radius : ℝ

/-- Model of `Sphere::new` — stores the fields with no validation. -/
def Sphere.new (center : Vec3) (radius : ℝ) : Sphere := ⟨center, radius⟩

/-- Model of `Sphere::hit` from `src/object.rs`: quadratic intersection, preferring
the root `(-half_b - sqrtd)/a` and falling back to `(-half_b + sqrtd)/a`,
then orienting the normal against the ray. -/
noncomputable def Sphere.hit (s : Sphere) (ray : Ray) (tRng : TRange) : Option Hit :=
  let oc := ray.origin - s.center
  let a := ray.direction.magnitudeSquared
  let half_b := oc.dot ray.direction
  let c := oc.magnitudeSquared - s.radius * s.radius
  let discriminant := half_b * half_b - a * c
  if discriminant < 0 then none
  else
    let sqrtd := Real.sqrt discriminant
    let root? :=
      if tRng ((-half_b - sqrtd) / a) then some ((-half_b - sqrtd) / a)
      else if tRng ((-half_b + sqrtd) / a) then some ((-half_b + sqrtd) / a)
      else none
    root?.map fun root =>
      let point := ray.at root
      let outwardNormal := (point - s.center) / s.radius
      let fn : Face × Vec3 :=
        if ray.direction.dot outwardNormal < 0 then (Face.Front, outwardNormal)
        else (Face.Back, -outwardNormal)
      { point := point, normal := fn.2, face := fn.1, t := root }

/-- Model of `Object` from `src/object.rs`: a sphere or an ordered list of objects. -/
inductive Object where
  | sphere (s : Sphere)
  | list (objs : List Object)

/-- Model of `Iterator::min_by_key(FloatOrd(hit.t))` over a nonempty list: fold keeping
the current minimum, replacing it only on a strictly smaller key, so the first
of several equal minima is returned (Rust `min_by_key` semantics). -/
noncomputable def minByTAux (best : Hit) : List Hit → Hit
  | [] => best
  | h :: rest => minByTAux (if h.t < best.t then h else best) rest

/-- Model of `Iterator::min_by_key(FloatOrd(hit.t))`: `none` on an empty iterator. -/
noncomputable def minByT : List Hit → Option Hit
  | [] => none
  | h :: rest => some (minByTAux h rest)

mutual

/-- Model of `Object::hit` from `src/object.rs`: spheres delegate to `Sphere::hit`;
lists take the minimum-`t` hit over all children. -/
noncomputable def Object.hit : Object → Ray → TRange → Option Hit
  | .sphere s, ray, rng => s.hit ray rng
  | .list objs, ray, rng => minByT (hitList objs ray rng)

/-- The `list.iter().filter_map(|obj| obj.hit(ray, t_rng.clone()))` iterator
of `Object::hit`, as a list of the children's hits in order. -/
noncomputable def hitList : List Object → Ray → TRange → List Hit
  | [], _, _ => []
  | o :: rest, ray, rng =>
    match Object.hit o ray rng with
    | some h => h :: hitList rest ray rng
    | none => hitList rest ray rng

end

/-! ## Frame scheduler (`render_frame_async`, `src/render.rs`)

The chunk ranges produced by `render_frame_async`: `pixels / chunk_len` full
chunks of `width * LINES_PER_WORK` pixels, then the remainder chunk
`pixels - remainder .. pixels`.  A range `(lo, hi)` stands for the half-open
interval of flattened pixel indices `[lo, hi)`. -/

/-- The chunk ranges generated by `render_frame_async`, parametrized by the
`LINES_PER_WORK` constant (50 in the source). -/
def chunkRanges (width height linesPerWork : ℕ) : List (ℕ × ℕ) :=
  let pixels := width * height
  let chunkLen := width * linesPerWork
  let chunks := pixels / chunkLen
  let remainder := pixels % chunkLen
  ((List.range chunks).map fun i => (i * chunkLen, i * chunkLen + chunkLen)) ++
    [(pixels - remainder, pixels)]

/-- Membership of a flattened pixel index in a half-open chunk range. -/
def inChunk (r : ℕ × ℕ) (n : ℕ) : Prop := r.1 ≤ n ∧ n < r.2

instance (r : ℕ × ℕ) (n : ℕ) : Decidable (inChunk r n) := by
  unfold inChunk; infer_instance

/-! ## Color (`src/picture.rs`) -/

/-- Model of `Color` from `src/picture.rs`: unclamped floating-point RGBA. -/
structure Color where
  r : ℝ
  g : ℝ
  b : ℝ
  a : ℝ

/-- Model of `Color::new`. -/
def Color.new (r g b a : ℝ) : Color := ⟨r, g, b, a⟩

/-- Model of `Color::WHITE`. -/
def Color.WHITE : Color := Color.new 1 1 1 1

/-- Modelled from the spec: `Color::BLACK` is referenced by `render_ray` in
`src/render.rs` but its definition is absent from the provided sources; the
spec's "return black" is modelled as zero RGB with the same opaque alpha
convention as `Color::WHITE`. -/
def Color.BLACK : Color := Color.new 0 0 0 1

/-- Model of `impl Add for Color`: componentwise on RGB but keeping the left-hand
side's alpha (the asymmetry noted in the spec's design notes). -/
instance : Add Color := ⟨fun s rhs => Color.new (s.r + rhs.r) (s.g + rhs.g) (s.b + rhs.b) s.a⟩

/-- Model of `impl Mul<f32> for Color` (and the delegating `impl Mul<Color> for f32`):
scales RGB, keeping the color's alpha. -/
instance : SMul ℝ Color := ⟨fun k s => Color.new (s.r * k) (s.g * k) (s.b * k) s.a⟩

/-- Modelled from the spec: the element-wise color multiply used by
`render_ray`'s `attenuation * render_ray(...)` (`src/render.rs`); the
`Mul<Color> for Color` impl is absent from the provided sources. -/
def Color.mul (s rhs : Color) : Color :=
  Color.new (s.r * rhs.r) (s.g * rhs.g) (s.b * rhs.b) (s.a * rhs.a)

/-- Model of `impl Sum for Color` from `src/picture.rs`: fold with `+` starting from
`Color::new(0.0, 0.0, 0.0, 1.0)`. -/
def Color.sum (l : List Color) : Color := l.foldl (· + ·) (Color.new 0 0 0 1)

/-! ## Materials (`src/material.rs`) -/

/-- Model of `Material` from `src/material.rs`. -/
inductive Material where
  | Lambert (albedo : Color)
  | Metal (albedo : Color) (fuzz : ℝ)
  | Dielectric (index_of_refraction : ℝ)

/-- Model of `Material::lambert`. -/
def Material.lambert (albedo : Color) : Material := Material.Lambert albedo

/-- Model of `Material::metal`. -/
def Material.metal (albedo : Color) (fuzz : ℝ) : Material := Material.Metal albedo fuzz

/-- Model of `Material::dielectric` — stores the index with no validation. -/
def Material.dielectric (index_of_refraction : ℝ) : Material :=
  Material.Dielectric index_of_refraction

/-- Model of `reflect(v, n) = v - 2 * v.dot(n) * n`. -/
def reflect (v n : Vec3) : Vec3 := v - (2 * v.dot n) • n

/-- Model of `refract` from `src/material.rs`. -/
noncomputable def refract (uv n : Vec3) (etaiOverEtat : ℝ) : Vec3 :=
  let cosTheta := min ((-uv).dot n) 1
  let rOutPerp := etaiOverEtat • (uv + cosTheta • n)
  let rOutParallel := (-Real.sqrt |1 - rOutPerp.magnitudeSquared|) • n
  rOutPerp + rOutParallel

/-- Schlick `reflectance` approximation from `src/material.rs`. -/
noncomputable def reflectance (cosine refIdx : ℝ) : ℝ :=
  let r0 := ((1 - refIdx) / (1 + refIdx)) ^ 2
  r0 + (1 - r0) * (1 - cosine) ^ 5

/-- One outcome of the random sampling used by `Material::scatter`:
the values `random_unit_vec()`, `random_vec_in_unit_sphere()` and `random()`
would return.  Quantifying over `Rand` quantifies over every random draw. -/
structure Rand where
  unitVec : Vec3
  sphereVec : Vec3
  draw : ℝ

/-- Model of `Material::scatter` from `src/material.rs`, with the random sampling
outcomes supplied by the `rnd` oracle. -/
noncomputable def Material.scatter (m : Material) (rnd : Rand) (ray : Ray) (hit : Hit) :
    Color × Ray :=
  match m with
  | .Lambert albedo =>
    let scatterDirection := hit.normal + rnd.unitVec
    (albedo, Ray.new hit.point scatterDirection)
  | .Metal albedo fuzz =>
    let reflected := reflect ray.direction.normalize hit.normal + fuzz • rnd.sphereVec
    (albedo, Ray.new hit.point reflected)
  | .Dielectric index_of_refraction =>
    let refractionRatio :=
      match hit.face with
      | .Front => 1 / index_of_refraction
      | .Back => index_of_refraction
    let unitDirection := ray.direction.normalize
    let cosTheta := min ((-unitDirection).dot hit.normal) 1
    let sinTheta := Real.sqrt (1 - cosTheta * cosTheta)
    let direction :=
      if refractionRatio * sinTheta > 1 ∨ reflectance cosTheta refractionRatio > rnd.draw then
        reflect unitDirection hit.normal
      else
        refract unitDirection hit.normal refractionRatio
    (Color.WHITE, Ray.new hit.point direction)

/-! ## Path tracer (`src/render.rs`) -/

/-- The `0.001..` range passed by `render_ray` to `Object::hit`
(`RangeFrom::contains`: `0.001 <= t`). -/
noncomputable def epsRange : TRange := fun t => decide ((1 / 1000 : ℝ) ≤ t)

/-- Model of `render_ray` from `src/render.rs`.  The material of a hit (a non-owning
reference resolved during intersection, `hit.material`) is modelled by the
`matOf` function, and the random draws of each recursion level by `rnds`. -/
noncomputable def renderRay (matOf : Hit → Material) (rnds : ℕ → Rand)
    (ray : Ray) (object : Object) : ℕ → Color
  | 0 => Color.BLACK
  | n + 1 =>
    match object.hit ray epsRange with
    | some hit =>
      let ar := (matOf hit).scatter (rnds n) ray hit
      Color.mul ar.1 (renderRay matOf rnds ar.2 object n)
    | none =>
      let unitDirection := ray.direction.normalize
      let t := 0.5 * (unitDirection.y + 1)
      (1 - t) • Color.WHITE + t • Color.new 0.5 0.6 1 1

/-- Model of `SamplePattern::sample_offsets` for the `[Vector2<f32>; N]` impl in
`src/render.rs`: the array itself, for any length N including 0. -/
def sampleOffsets (pattern : List Vec2) : List Vec2 := pattern

/-- Model of `render_pixel` from `src/render.rs`, with the per-sample evaluation
`render_ray(viewport.emit_ray(u, v), object, MAX_BOUNCES)` abstracted into
the function `shade` of the sub-pixel offset: sums the shaded samples with
`Color::sum`, divides by the sample count and applies the per-channel
`sqrt` gamma correction, forcing alpha to 1. -/
noncomputable def renderPixelWith (shade : Vec2 → Color) (pattern : List Vec2) : Color :=
  let samples := sampleOffsets pattern
  let sum := Color.sum (samples.map shade)
  let n := (samples.length : ℝ)
  Color.new (Real.sqrt (sum.r / n)) (Real.sqrt (sum.g / n)) (Real.sqrt (sum.b / n)) 1

/-! ## Pixel conversion (`src/picture.rs`) -/

/-- The semantics of Rust's saturating float-to-`u8` cast `as u8`:
truncation toward zero, saturated to `[0, 255]`. -/
noncomputable def f32AsU8 (x : ℝ) : ℕ := Int.toNat (min 255 ⌊x⌋)

/-- Model of `f32::clamp(0.0, 1.0)`. -/
noncomputable def clamp01 (v : ℝ) : ℝ := max 0 (min v 1)

/-- Model of `normalize` from `src/picture.rs`: `(value.clamp(0.0, 1.0) * 255.0) as u8`. -/
noncomputable def normalize (value : ℝ) : ℕ := f32AsU8 (clamp01 value * 255)

/-- The conversion the spec's words describe, for comparison with
`normalize`: `round(clamp(v, 0, 1) * 255)` with clamping to `[0, 255]`. -/
noncomputable def normalizeSpec (value : ℝ) : ℕ :=
  Int.toNat (min 255 (round (clamp01 value * 255)))

/-! ## Spec-mandated checked construction (for comparison with the code)

The spec's §7 requires malformed construction inputs to be rejected with a
configuration error.  These definitions follow the spec's words; the claim
about construction compares them with the code's actual constructors. -/

/-- Modelled from the spec: `Sphere::new` as §7 mandates it, rejecting
`radius <= 0`. -/
noncomputable def sphereNewChecked (center : Vec3) (radius : ℝ) : Option Sphere :=
  if radius ≤ 0 then none else some ⟨center, radius⟩

/-- Modelled from the spec: `Material::dielectric` as §7 mandates it,
rejecting a non-positive refractive index. -/
noncomputable def dielectricChecked (index_of_refraction : ℝ) : Option Material :=
  if index_of_refraction ≤ 0 then none else some (Material.Dielectric index_of_refraction)

/-- Modelled from the spec: sample-pattern construction as §7 mandates it,
rejecting the empty pattern. -/
def patternChecked (pattern : List Vec2) : Option (List Vec2) :=
  if pattern.isEmpty then none else some pattern

/-! ## Theorems: frame scheduler -/

lemma chunkPartition (P L : ℕ) (hL : 0 < L) :
    ((((List.range (P / L)).map fun i => (i * L, i * L + L)) ++
        [(P - P % L, P)]).Pairwise fun r s => ∀ n, ¬(inChunk r n ∧ inChunk s n)) ∧
    ∀ n, (∃ r ∈ ((List.range (P / L)).map fun i => (i * L, i * L + L)) ++
        [(P - P % L, P)], inChunk r n) ↔ n < P := by
  have hdm : L * (P / L) + P % L = P := Nat.div_add_mod P L
  constructor
  · rw [List.pairwise_append]
    refine ⟨?_, List.pairwise_singleton _ _, ?_⟩
    · rw [List.pairwise_map]
      refine (List.pairwise_lt_range (P / L)).imp ?_
      intro i j hij n hn
      obtain ⟨⟨h1, h2⟩, ⟨h3, h4⟩⟩ := hn
      have e1 : (i + 1) * L = i * L + L := by ring
      have e2 : (i + 1) * L ≤ j * L := Nat.mul_le_mul_right L hij
      simp only at h1 h2 h3 h4
      omega
    · intro a ha b hb
      simp only [List.mem_map, List.mem_range] at ha
      simp only [List.mem_singleton] at hb
      obtain ⟨i, hi, rfl⟩ := ha
      subst hb
      intro n hn
      obtain ⟨⟨h1, h2⟩, ⟨h3, h4⟩⟩ := hn
      have e1 : (i + 1) * L = i * L + L := by ring
      have e2 : (i + 1) * L ≤ (P / L) * L := Nat.mul_le_mul_right L hi
      have e3 : (P / L) * L = L * (P / L) := Nat.mul_comm _ _
      simp only [inChunk] at h1 h2 h3 h4
      omega
  · intro n
    constructor
    · rintro ⟨r, hr, hn1, hn2⟩
      simp only [List.mem_append, List.mem_map, List.mem_range,
        List.mem_singleton] at hr
      rcases hr with ⟨i, hi, rfl⟩ | rfl
      · have e1 : (i + 1) * L = i * L + L := by ring
        have e2 : (i + 1) * L ≤ (P / L) * L := Nat.mul_le_mul_right L hi
        have e3 : (P / L) * L = L * (P / L) := Nat.mul_comm _ _
        simp only [inChunk] at hn1 hn2
        omega
      · exact hn2
    · intro hn
      have e4 : L * (n / L) + n % L = n := Nat.div_add_mod n L
      have e5 : n % L < L := Nat.mod_lt n hL
      rcases Nat.lt_or_ge (n / L) (P / L) with hi | hi
      · refine ⟨((n / L) * L, (n / L) * L + L), ?_, ?_, ?_⟩
        · simp only [List.mem_append, List.mem_map, List.mem_range]
          exact Or.inl ⟨n / L, hi, rfl⟩
        · have e6 : (n / L) * L = L * (n / L) := Nat.mul_comm _ _
          simp only [inChunk]
          omega
        · have e6 : (n / L) * L = L * (n / L) := Nat.mul_comm _ _
          simp only [inChunk]
          omega
      · refine ⟨(P - P % L, P), ?_, ?_, hn⟩
        · simp only [List.mem_append, List.mem_singleton]
          right
          trivial
        · have e6 : L * (P / L) ≤ L * (n / L) := Nat.mul_le_mul_left L hi
          simp only [inChunk]
          omega

/-- C3: for every `width > 0`, `height > 0` and `LINES_PER_WORK > 0`, the
chunk ranges generated by `render_frame_async` are pairwise disjoint and
their union is exactly the flattened pixel index range `[0, width*height)`. -/
theorem chunk_ranges_partition (width height linesPerWork : ℕ)
    (hw : 0 < width) (_hh : 0 < height) (hl : 0 < linesPerWork) :
    ((chunkRanges width height linesPerWork).Pairwise
      fun r s => ∀ n, ¬(inChunk r n ∧ inChunk s n)) ∧
    ∀ n, (∃ r ∈ chunkRanges width height linesPerWork, inChunk r n) ↔
      n < width * height := by
  have hL : 0 < width * linesPerWork := Nat.mul_pos hw hl
  exact chunkPartition (width * height) (width * linesPerWork) hL

/-- Witness for C3 at `width = 2`, `height = 5`, `LINES_PER_WORK = 2`. -/
theorem chunk_ranges_partition_witness :
    (chunkRanges 2 5 2).Pairwise (fun r s => ∀ n, ¬(inChunk r n ∧ inChunk s n)) ∧
    ∀ n, (∃ r ∈ chunkRanges 2 5 2, inChunk r n) ↔ n < 2 * 5 :=
  chunk_ranges_partition 2 5 2 (by decide) (by decide) (by decide)

/-! ## Theorems: sphere intersection -/

@[simp] lemma Vec3.add_components (a b : Vec3) :
    a + b = ⟨a.x + b.x, a.y + b.y, a.z + b.z⟩ := rfl

@[simp] lemma Vec3.sub_def (a b : Vec3) :
    a - b = ⟨a.x - b.x, a.y - b.y, a.z - b.z⟩ := rfl

@[simp] lemma Vec3.neg_def (a : Vec3) : -a = ⟨-a.x, -a.y, -a.z⟩ := rfl

@[simp] lemma Vec3.smul_def (r : ℝ) (a : Vec3) :
    r • a = ⟨r * a.x, r * a.y, r * a.z⟩ := rfl

@[simp] lemma Vec3.div_def (a : Vec3) (r : ℝ) :
    a / r = ⟨a.x / r, a.y / r, a.z / r⟩ := rfl

lemma magSq_nonneg (v : Vec3) : 0 ≤ v.magnitudeSquared := by
  simp only [Vec3.magnitudeSquared, Vec3.dot]
  nlinarith [sq_nonneg v.x, sq_nonneg v.y, sq_nonneg v.z]

lemma magSq_pos {v : Vec3} (hv : v ≠ (⟨0, 0, 0⟩ : Vec3)) : 0 < v.magnitudeSquared := by
  rcases (magSq_nonneg v).lt_or_eq with h | h
  · exact h
  · exfalso
    apply hv
    obtain ⟨x, y, z⟩ := v
    simp only [Vec3.magnitudeSquared, Vec3.dot] at h
    have hx : x = 0 := by nlinarith [sq_nonneg x, sq_nonneg y, sq_nonneg z]
    have hy : y = 0 := by nlinarith [sq_nonneg x, sq_nonneg y, sq_nonneg z]
    have hz : z = 0 := by nlinarith [sq_nonneg x, sq_nonneg y, sq_nonneg z]
    simp [hx, hy, hz]

/-- C1: for a ray with non-zero direction, `Sphere::hit` rejects a negative
discriminant, and otherwise returns the smaller quadratic root when it lies
in the query range, else the larger root when it lies in the range, else no
hit — the nearest valid intersection. -/
theorem sphere_hit_nearest_root (s : Sphere) (ray : Ray) (rng : TRange)
    (a half_b c disc r1 r2 : ℝ)
    (hd : ray.direction ≠ (⟨0, 0, 0⟩ : Vec3))
    (ha : a = ray.direction.magnitudeSquared)
    (hb : half_b = (ray.origin - s.center).dot ray.direction)
    (hc : c = (ray.origin - s.center).magnitudeSquared - s.radius * s.radius)
    (hdisc : disc = half_b * half_b - a * c)
    (hr1 : r1 = (-half_b - Real.sqrt disc) / a)
    (hr2 : r2 = (-half_b + Real.sqrt disc) / a) :
    (disc < 0 → s.hit ray rng = none) ∧
    (0 ≤ disc →
      r1 ≤ r2 ∧
      (rng r1 = true → (s.hit ray rng).map Hit.t = some r1) ∧
      (rng r1 = false → rng r2 = true → (s.hit ray rng).map Hit.t = some r2) ∧
      (rng r1 = false → rng r2 = false → s.hit ray rng = none)) := by
  have hapos : 0 < a := ha ▸ magSq_pos hd
  subst ha hb hc hdisc hr1 hr2
  constructor
  · intro hneg
    simp only [Sphere.hit]
    rw [if_pos hneg]
  · intro h0
    refine ⟨?_, ?_, ?_, ?_⟩
    · have hs := Real.sqrt_nonneg
        ((ray.origin - s.center).dot ray.direction *
            (ray.origin - s.center).dot ray.direction -
          ray.direction.magnitudeSquared *
            ((ray.origin - s.center).magnitudeSquared - s.radius * s.radius))
      rw [div_le_div_iff₀ hapos hapos]
      nlinarith [hs, hapos]
    · intro h1
      simp only [Sphere.hit]
      rw [if_neg (not_lt.mpr h0), if_pos h1]
      rfl
    · intro h1 h2
      simp only [Sphere.hit]
      rw [if_neg (not_lt.mpr h0), if_neg (by rw [h1]; exact Bool.false_ne_true),
        if_pos h2]
      rfl
    · intro h1 h2
      simp only [Sphere.hit]
      rw [if_neg (not_lt.mpr h0), if_neg (by rw [h1]; exact Bool.false_ne_true),
        if_neg (by rw [h2]; exact Bool.false_ne_true)]
      rfl

lemma sqrt_quarter : Real.sqrt (1 / 4 : ℝ) = 1 / 2 := by
  rw [show (1 / 4 : ℝ) = (1 / 2) ^ 2 by norm_num]
  exact Real.sqrt_sq (by norm_num)

lemma sqrt_four : Real.sqrt (4 : ℝ) = 2 := by
  rw [show (4 : ℝ) = 2 ^ 2 by norm_num]
  exact Real.sqrt_sq (by norm_num)

lemma epsRange_half : epsRange (1 / 2 : ℝ) = true := by
  simp only [epsRange, decide_eq_true_eq]
  norm_num

/-- Witness for C1: the reference test ray from `(0,0,1)` along `(0,0,-1)`
against the sphere of radius `1/2` at the origin hits at `t = 1/2`. -/
theorem sphere_hit_nearest_root_witness :
    ((Sphere.new ⟨0, 0, 0⟩ (1 / 2)).hit (Ray.new ⟨0, 0, 1⟩ ⟨0, 0, -1⟩) epsRange).map Hit.t
      = some (1 / 2) := by
  have hd : (Ray.new (⟨0, 0, 1⟩ : Vec3) ⟨0, 0, -1⟩).direction ≠ (⟨0, 0, 0⟩ : Vec3) := by
    simp [Ray.new]
  have H := sphere_hit_nearest_root (Sphere.new ⟨0, 0, 0⟩ (1 / 2))
    (Ray.new ⟨0, 0, 1⟩ ⟨0, 0, -1⟩) epsRange 1 (-1) (3 / 4) (1 / 4) (1 / 2) (3 / 2) hd
    (by norm_num [Ray.new, Vec3.magnitudeSquared, Vec3.dot])
    (by norm_num [Ray.new, Sphere.new, Vec3.dot])
    (by norm_num [Ray.new, Sphere.new, Vec3.magnitudeSquared, Vec3.dot])
    (by norm_num)
    (by rw [sqrt_quarter]; norm_num)
    (by rw [sqrt_quarter]; norm_num)
  exact (H.2 (by norm_num)).2.1 epsRange_half

/-! ## Theorems: list intersection takes the minimum-t hit -/

lemma minByTAux_mem (best : Hit) (l : List Hit) :
    minByTAux best l = best ∨ minByTAux best l ∈ l := by
  induction l generalizing best with
  | nil => left; rfl
  | cons h t ih =>
    simp only [minByTAux]
    by_cases hc : h.t < best.t
    · rw [if_pos hc]
      rcases ih h with H | H
      · right; rw [H]; exact List.mem_cons_self _ _
      · right; exact List.mem_cons_of_mem _ H
    · rw [if_neg hc]
      rcases ih best with H | H
      · left; exact H
      · right; exact List.mem_cons_of_mem _ H

lemma minByTAux_le (best : Hit) (l : List Hit) :
    (minByTAux best l).t ≤ best.t ∧ ∀ h' ∈ l, (minByTAux best l).t ≤ h'.t := by
  induction l generalizing best with
  | nil => exact ⟨le_refl _, by simp⟩
  | cons h t ih =>
    simp only [minByTAux]
    obtain ⟨ih1, ih2⟩ := ih (if h.t < best.t then h else best)
    have hb : (if h.t < best.t then h else best).t ≤ best.t := by
      by_cases hc : h.t < best.t
      · rw [if_pos hc]; exact le_of_lt hc
      · rw [if_neg hc]
    have hhd : (if h.t < best.t then h else best).t ≤ h.t := by
      by_cases hc : h.t < best.t
      · rw [if_pos hc]
      · rw [if_neg hc]; exact not_lt.mp hc
    refine ⟨le_trans ih1 hb, ?_⟩
    intro h' hh'
    rcases List.mem_cons.mp hh' with rfl | hh'
    · exact le_trans ih1 hhd
    · exact ih2 h' hh'

lemma minByT_mem {l : List Hit} {h : Hit} (hm : minByT l = some h) : h ∈ l := by
  cases l with
  | nil => simp [minByT] at hm
  | cons h0 t =>
    simp only [minByT, Option.some.injEq] at hm
    rcases minByTAux_mem h0 t with H | H
    · rw [← hm, H]; exact List.mem_cons_self _ _
    · rw [← hm]; exact List.mem_cons_of_mem _ H

lemma minByT_le {l : List Hit} {h : Hit} (hm : minByT l = some h) :
    ∀ h' ∈ l, h.t ≤ h'.t := by
  cases l with
  | nil => simp [minByT] at hm
  | cons h0 t =>
    simp only [minByT, Option.some.injEq] at hm
    obtain ⟨h1, h2⟩ := minByTAux_le h0 t
    intro h' hh'
    rcases List.mem_cons.mp hh' with rfl | hh'
    · exact hm ▸ h1
    · exact hm ▸ h2 h' hh'

lemma minByT_none_iff (l : List Hit) : minByT l = none ↔ l = [] := by
  cases l <;> simp [minByT]

lemma mem_hitList {objs : List Object} {ray : Ray} {rng : TRange} {h : Hit} :
    h ∈ hitList objs ray rng ↔ ∃ o ∈ objs, Object.hit o ray rng = some h := by
  induction objs with
  | nil => simp [hitList]
  | cons o rest ih =>
    rw [hitList]
    cases ho : Object.hit o ray rng with
    | some h0 =>
      simp only [List.mem_cons, ih, List.mem_cons]
      constructor
      · rintro (rfl | ⟨o', ho', hh'⟩)
        · exact ⟨o, Or.inl rfl, ho⟩
        · exact ⟨o', Or.inr ho', hh'⟩
      · rintro ⟨o', (rfl | ho'), hh'⟩
        · rw [ho] at hh'
          exact Or.inl (Option.some.injEq _ _ ▸ hh').symm
        · exact Or.inr ⟨o', ho', hh'⟩
    | none =>
      rw [ih]
      constructor
      · rintro ⟨o', ho', hh'⟩
        exact ⟨o', List.mem_cons_of_mem _ ho', hh'⟩
      · rintro ⟨o', ho', hh'⟩
        rcases List.mem_cons.mp ho' with rfl | ho'
        · rw [ho] at hh'
          exact absurd hh' (by simp)
        · exact ⟨o', ho', hh'⟩

lemma hitList_nil_iff {objs : List Object} {ray : Ray} {rng : TRange} :
    hitList objs ray rng = [] ↔ ∀ o ∈ objs, Object.hit o ray rng = none := by
  induction objs with
  | nil => simp [hitList]
  | cons o rest ih =>
    rw [hitList]
    cases ho : Object.hit o ray rng with
    | some h0 =>
      simp only [List.cons_ne_nil, false_iff]
      intro hall
      have h1 := hall o (List.mem_cons_self _ _)
      rw [h1] at ho
      exact Option.noConfusion ho
    | none =>
      rw [ih]
      constructor
      · intro hall o' ho'
        rcases List.mem_cons.mp ho' with rfl | ho'
        · exact ho
        · exact hall o' ho'
      · intro hall o' ho'
        exact hall o' (List.mem_cons_of_mem _ ho')

/-- C2: `Object::hit` on a `List` returns no hit iff no child intersects
(in particular on the empty list), and any returned hit is one of the
children's hits with the minimum `t` among them. -/
theorem list_hit_min_t (objs : List Object) (ray : Ray) (rng : TRange) :
    (Object.hit (Object.list objs) ray rng = none ↔
      ∀ o ∈ objs, Object.hit o ray rng = none) ∧
    ∀ h, Object.hit (Object.list objs) ray rng = some h →
      (∃ o ∈ objs, Object.hit o ray rng = some h) ∧
      ∀ o ∈ objs, ∀ h', Object.hit o ray rng = some h' → h.t ≤ h'.t := by
  have e : Object.hit (Object.list objs) ray rng = minByT (hitList objs ray rng) := by
    rw [Object.hit]
  constructor
  · rw [e, minByT_none_iff, hitList_nil_iff]
  · intro h hm
    rw [e] at hm
    refine ⟨mem_hitList.mp (minByT_mem hm), ?_⟩
    intro o ho h' hh'
    exact minByT_le hm h' (mem_hitList.mpr ⟨o, ho, hh'⟩)

/-- Concrete evaluation of the reference intersection: the ray from
`(0,0,1)` along `(0,0,-1)` hits the origin sphere of radius `1/2` at
`t = 1/2`, point `(0,0,1/2)`, outward normal `(0,0,1)`, front face. -/
lemma sphere_hit_concrete :
    (Sphere.new ⟨0, 0, 0⟩ (1 / 2)).hit (Ray.new ⟨0, 0, 1⟩ ⟨0, 0, -1⟩) epsRange
      = some ⟨⟨0, 0, 1 / 2⟩, ⟨0, 0, 1⟩, Face.Front, 1 / 2⟩ := by
  norm_num [Sphere.hit, Sphere.new, Ray.new, Ray.at, Vec3.dot, Vec3.magnitudeSquared,
    sqrt_quarter, sqrt_four, epsRange, decide_eq_true_eq]

/-- Witness for C2 on the one-sphere scene: the list hit is the sphere's hit
and its `t` is minimal among all children's hits. -/
theorem list_hit_min_t_witness :
    Object.hit (Object.list [Object.sphere (Sphere.new ⟨0, 0, 0⟩ (1 / 2))])
        (Ray.new ⟨0, 0, 1⟩ ⟨0, 0, -1⟩) epsRange
      = some ⟨⟨0, 0, 1 / 2⟩, ⟨0, 0, 1⟩, Face.Front, 1 / 2⟩ ∧
    (∃ o ∈ [Object.sphere (Sphere.new ⟨0, 0, 0⟩ (1 / 2))],
      Object.hit o (Ray.new ⟨0, 0, 1⟩ ⟨0, 0, -1⟩) epsRange
        = some ⟨⟨0, 0, 1 / 2⟩, ⟨0, 0, 1⟩, Face.Front, 1 / 2⟩) ∧
    ∀ o ∈ [Object.sphere (Sphere.new ⟨0, 0, 0⟩ (1 / 2))], ∀ h',
      Object.hit o (Ray.new ⟨0, 0, 1⟩ ⟨0, 0, -1⟩) epsRange = some h' →
        (1 / 2 : ℝ) ≤ h'.t := by
  have hs : Object.hit (Object.sphere (Sphere.new ⟨0, 0, 0⟩ (1 / 2)))
      (Ray.new ⟨0, 0, 1⟩ ⟨0, 0, -1⟩) epsRange
      = some ⟨⟨0, 0, 1 / 2⟩, ⟨0, 0, 1⟩, Face.Front, 1 / 2⟩ := by
    rw [Object.hit]
    exact sphere_hit_concrete
  have hl : Object.hit (Object.list [Object.sphere (Sphere.new ⟨0, 0, 0⟩ (1 / 2))])
      (Ray.new ⟨0, 0, 1⟩ ⟨0, 0, -1⟩) epsRange
      = some ⟨⟨0, 0, 1 / 2⟩, ⟨0, 0, 1⟩, Face.Front, 1 / 2⟩ := by
    rw [Object.hit, hitList, hs, hitList, minByT, minByTAux]
  have H := (list_hit_min_t [Object.sphere (Sphere.new ⟨0, 0, 0⟩ (1 / 2))]
    (Ray.new ⟨0, 0, 1⟩ ⟨0, 0, -1⟩) epsRange).2 _ hl
  exact ⟨hl, H.1, H.2⟩

/-! ## Theorems: hit well-formedness -/

mutual

/-- A sphere occurring somewhere in an object tree. -/
def sphereIn (s : Sphere) : Object → Prop
  | .sphere s' => s' = s
  | .list objs => sphereInList s objs

/-- A sphere occurring in some member of a list of objects. -/
def sphereInList (s : Sphere) : List Object → Prop
  | [] => False
  | o :: rest => sphereIn s o ∨ sphereInList s rest

end

/-- Every hit produced by `Sphere::hit` has its `t` accepted by the query
range, its face set by the sign of `direction · outward_normal`, and its
normal equal to the outward normal, negated on back faces. -/
lemma sphere_hit_wf {s : Sphere} {ray : Ray} {rng : TRange} {h : Hit}
    (hm : s.hit ray rng = some h) :
    rng h.t = true ∧
    ((h.face = Face.Front ↔ ray.direction.dot ((h.point - s.center) / s.radius) < 0) ∧
     h.normal = if h.face = Face.Front then (h.point - s.center) / s.radius
       else -((h.point - s.center) / s.radius)) := by
  simp only [Sphere.hit] at hm
  by_cases h0 : (ray.origin - s.center).dot ray.direction *
      (ray.origin - s.center).dot ray.direction -
      ray.direction.magnitudeSquared *
        ((ray.origin - s.center).magnitudeSquared - s.radius * s.radius) < 0
  · rw [if_pos h0] at hm
    exact absurd hm (by simp)
  · rw [if_neg h0] at hm
    generalize hra : (-(ray.origin - s.center).dot ray.direction -
        Real.sqrt ((ray.origin - s.center).dot ray.direction *
            (ray.origin - s.center).dot ray.direction -
          ray.direction.magnitudeSquared *
            ((ray.origin - s.center).magnitudeSquared - s.radius * s.radius))) /
        ray.direction.magnitudeSquared = r1 at hm
    generalize hrb : (-(ray.origin - s.center).dot ray.direction +
        Real.sqrt ((ray.origin - s.center).dot ray.direction *
            (ray.origin - s.center).dot ray.direction -
          ray.direction.magnitudeSquared *
            ((ray.origin - s.center).magnitudeSquared - s.radius * s.radius))) /
        ray.direction.magnitudeSquared = r2 at hm
    have core : ∀ root : ℝ, rng root = true →
        (Option.map (fun root =>
            ({ point := ray.at root,
               normal := (if ray.direction.dot ((ray.at root - s.center) / s.radius) < 0
                   then (Face.Front, (ray.at root - s.center) / s.radius)
                   else (Face.Back, -((ray.at root - s.center) / s.radius))).2,
               face := (if ray.direction.dot ((ray.at root - s.center) / s.radius) < 0
                   then (Face.Front, (ray.at root - s.center) / s.radius)
                   else (Face.Back, -((ray.at root - s.center) / s.radius))).1,
               t := root } : Hit)) (some root) = some h) →
        rng h.t = true ∧
        ((h.face = Face.Front ↔ ray.direction.dot ((h.point - s.center) / s.radius) < 0) ∧
         h.normal = if h.face = Face.Front then (h.point - s.center) / s.radius
           else -((h.point - s.center) / s.radius)) := by
      intro root hroot heq
      simp only [Option.map_some', Option.some.injEq] at heq
      subst heq
      by_cases hdot : ray.direction.dot ((ray.at root - s.center) / s.radius) < 0
      · refine ⟨hroot, ?_, ?_⟩
        · rw [if_pos hdot]
          exact iff_of_true rfl hdot
        · rw [if_pos hdot, if_pos (show (Face.Front,
            (ray.at root - s.center) / s.radius).1 = Face.Front from rfl)]
      · refine ⟨hroot, ?_, ?_⟩
        · rw [if_neg hdot]
          exact iff_of_false (fun hcon => Face.noConfusion hcon) hdot
        · rw [if_neg hdot, if_neg (show ¬(Face.Back,
            -((ray.at root - s.center) / s.radius)).1 = Face.Front from
            fun hcon => Face.noConfusion hcon)]
    by_cases h1 : rng r1 = true
    · rw [if_pos h1] at hm
      exact core r1 h1 hm
    · rw [if_neg h1] at hm
      by_cases h2 : rng r2 = true
      · rw [if_pos h2] at hm
        exact core r2 h2 hm
      · rw [if_neg h2] at hm
        exact absurd hm (by simp)

mutual

/-- Any hit returned by `Object::hit` is the hit of some sphere in the
object tree (with the same query range). -/
theorem object_hit_spheres (o : Object) (ray : Ray) (rng : TRange) (h : Hit)
    (hm : Object.hit o ray rng = some h) :
    ∃ s, sphereIn s o ∧ s.hit ray rng = some h :=
  match o with
  | .sphere s' => ⟨s', rfl, by rwa [Object.hit] at hm⟩
  | .list objs => by
    rw [Object.hit] at hm
    obtain ⟨s, hs, hh⟩ := hitList_spheres objs ray rng h (minByT_mem hm)
    exact ⟨s, hs, hh⟩

/-- Any member of `hitList` is the hit of some sphere of some list member. -/
theorem hitList_spheres (objs : List Object) (ray : Ray) (rng : TRange) (h : Hit)
    (hm : h ∈ hitList objs ray rng) :
    ∃ s, sphereInList s objs ∧ s.hit ray rng = some h :=
  match objs with
  | [] => by rw [hitList] at hm; cases hm
  | o :: rest => by
    rw [hitList] at hm
    cases ho : Object.hit o ray rng with
    | some h0 =>
      rw [ho] at hm
      rcases List.mem_cons.mp hm with rfl | hm'
      · obtain ⟨s, hs, hh⟩ := object_hit_spheres o ray rng h ho
        exact ⟨s, Or.inl hs, hh⟩
      · obtain ⟨s, hs, hh⟩ := hitList_spheres rest ray rng h hm'
        exact ⟨s, Or.inr hs, hh⟩
    | none =>
      rw [ho] at hm
      obtain ⟨s, hs, hh⟩ := hitList_spheres rest ray rng h hm
      exact ⟨s, Or.inr hs, hh⟩

end

/-- C6: every hit returned by `Object::hit` satisfies the `Hit` invariant:
its `t` is accepted by the queried range and, for the sphere of the tree
that produced it, its face is `Front` iff `direction · outward_normal < 0`
and its normal is that outward normal, negated on back faces. -/
theorem object_hit_wellformed (o : Object) (ray : Ray) (rng : TRange) (h : Hit)
    (hm : Object.hit o ray rng = some h) :
    rng h.t = true ∧
    ∃ s, sphereIn s o ∧
      ((h.face = Face.Front ↔ ray.direction.dot ((h.point - s.center) / s.radius) < 0) ∧
       h.normal = if h.face = Face.Front then (h.point - s.center) / s.radius
         else -((h.point - s.center) / s.radius)) := by
  obtain ⟨s, hs, hh⟩ := object_hit_spheres o ray rng h hm
  have W := sphere_hit_wf hh
  exact ⟨W.1, s, hs, W.2⟩

/-- Witness for C6 at the reference one-sphere intersection. -/
theorem object_hit_wellformed_witness :
    epsRange (Hit.t ⟨⟨0, 0, 1 / 2⟩, ⟨0, 0, 1⟩, Face.Front, 1 / 2⟩) = true ∧
    ∃ s, sphereIn s (Object.sphere (Sphere.new ⟨0, 0, 0⟩ (1 / 2))) ∧
      ((Hit.face ⟨⟨0, 0, 1 / 2⟩, ⟨0, 0, 1⟩, Face.Front, 1 / 2⟩ = Face.Front ↔
        (Ray.new ⟨0, 0, 1⟩ ⟨0, 0, -1⟩).direction.dot
          ((Hit.point ⟨⟨0, 0, 1 / 2⟩, ⟨0, 0, 1⟩, Face.Front, 1 / 2⟩ - s.center) / s.radius)
          < 0) ∧
       Hit.normal ⟨⟨0, 0, 1 / 2⟩, ⟨0, 0, 1⟩, Face.Front, 1 / 2⟩ =
         if Hit.face ⟨⟨0, 0, 1 / 2⟩, ⟨0, 0, 1⟩, Face.Front, 1 / 2⟩ = Face.Front
         then (Hit.point ⟨⟨0, 0, 1 / 2⟩, ⟨0, 0, 1⟩, Face.Front, 1 / 2⟩ - s.center) / s.radius
         else -((Hit.point ⟨⟨0, 0, 1 / 2⟩, ⟨0, 0, 1⟩, Face.Front, 1 / 2⟩ - s.center)
           / s.radius)) :=
  object_hit_wellformed _ _ _ _ (by rw [Object.hit]; exact sphere_hit_concrete)

/-! ## Theorems: material scattering -/

/-- C10: for every material variant, every hit, and every outcome of the
random sampling, the scattered ray starts at the hit point. -/
theorem scatter_origin_hit_point (m : Material) (rnd : Rand) (ray : Ray) (h : Hit) :
    ((m.scatter rnd ray h).2).origin = h.point := by
  cases m with
  | Lambert albedo => rfl
  | Metal albedo fuzz => rfl
  | Dielectric idx => rfl

/-- C7: whenever `refraction_ratio * sin_theta > 1`, the dielectric scatters
the reflected direction — never the refracted one — for every value of the
uniform random draw, with opaque-white attenuation. -/
theorem dielectric_total_internal_reflection (idx : ℝ) (rnd : Rand) (ray : Ray) (h : Hit)
    (htir : (match h.face with
        | Face.Front => 1 / idx
        | Face.Back => idx) *
      Real.sqrt (1 - min ((-(ray.direction.normalize)).dot h.normal) 1 *
        min ((-(ray.direction.normalize)).dot h.normal) 1) > 1) :
    (Material.Dielectric idx).scatter rnd ray h
      = (Color.WHITE, Ray.new h.point (reflect ray.direction.normalize h.normal)) := by
  obtain ⟨hp, hn, hf, ht⟩ := h
  cases hf with
  | Front =>
    have htir' : 1 / idx * Real.sqrt (1 - min ((-(ray.direction.normalize)).dot hn) 1 *
        min ((-(ray.direction.normalize)).dot hn) 1) > 1 := htir
    simp only [Material.scatter]
    rw [if_pos (Or.inl htir')]
  | Back =>
    have htir' : idx * Real.sqrt (1 - min ((-(ray.direction.normalize)).dot hn) 1 *
        min ((-(ray.direction.normalize)).dot hn) 1) > 1 := htir
    simp only [Material.scatter]
    rw [if_pos (Or.inl htir')]

/-- Witness for C7: a back-face exit with index 2 at grazing incidence
(`sin_theta = 1`, so `ratio * sin_theta = 2 > 1`) reflects. -/
theorem dielectric_total_internal_reflection_witness :
    (Material.Dielectric 2).scatter ⟨⟨0, 0, 0⟩, ⟨0, 0, 0⟩, 0⟩
        (Ray.new ⟨0, 0, 0⟩ ⟨1, 0, 0⟩) ⟨⟨0, 0, 0⟩, ⟨0, 1, 0⟩, Face.Back, 1⟩
      = (Color.WHITE, Ray.new ⟨0, 0, 0⟩
          (reflect (Ray.new ⟨0, 0, 0⟩ ⟨1, 0, 0⟩).direction.normalize ⟨0, 1, 0⟩)) := by
  apply dielectric_total_internal_reflection
  norm_num [Ray.new, Vec3.normalize, Vec3.magnitude, Vec3.magnitudeSquared, Vec3.dot,
    Real.sqrt_one]

/-! ## Theorems: path tracer -/

/-- C8: `render_ray` with `bounces_left = 0` returns exactly black for every
ray, every scene object, every material binding and every random stream. -/
theorem render_ray_zero_bounces_black (matOf : Hit → Material) (rnds : ℕ → Rand)
    (ray : Ray) (object : Object) :
    renderRay matOf rnds ray object 0 = Color.BLACK := by
  rw [renderRay]

/-! ## Theorems: pixel averaging -/

@[simp] lemma Color.new_r (r g b a : ℝ) : (Color.new r g b a).r = r := rfl

@[simp] lemma Color.new_g (r g b a : ℝ) : (Color.new r g b a).g = g := rfl

@[simp] lemma Color.new_b (r g b a : ℝ) : (Color.new r g b a).b = b := rfl

@[simp] lemma Color.new_a (r g b a : ℝ) : (Color.new r g b a).a = a := rfl

@[simp] lemma Color.add_channels (s rhs : Color) :
    s + rhs = Color.new (s.r + rhs.r) (s.g + rhs.g) (s.b + rhs.b) s.a := rfl

lemma color_foldl_const : ∀ (l : List Color) (c init : Color), (∀ x ∈ l, x = c) →
    (l.foldl (· + ·) init).r = init.r + l.length * c.r ∧
    (l.foldl (· + ·) init).g = init.g + l.length * c.g ∧
    (l.foldl (· + ·) init).b = init.b + l.length * c.b ∧
    (l.foldl (· + ·) init).a = init.a
  | [], c, init, _ => by simp
  | x :: t, c, init, h => by
    have hx : x = c := h x (List.mem_cons_self _ _)
    subst hx
    obtain ⟨h1, h2, h3, h4⟩ :=
      color_foldl_const t x (init + x) fun y hy => h y (List.mem_cons_of_mem _ hy)
    simp only [List.foldl_cons, List.length_cons] at *
    refine ⟨?_, ?_, ?_, ?_⟩
    · rw [h1]
      simp only [Color.add_channels, Color.new_r]
      push_cast
      ring
    · rw [h2]
      simp only [Color.add_channels, Color.new_g]
      push_cast
      ring
    · rw [h3]
      simp only [Color.add_channels, Color.new_b]
      push_cast
      ring
    · rw [h4]
      simp only [Color.add_channels, Color.new_a]

/-- C4 (amended): if every sub-pixel sample shades to the same color `c` and
the pattern is non-empty, `render_pixel` returns the per-channel square root
of `c` (gamma correction applied to the unchanged average) with alpha 1. -/
theorem render_pixel_constant (shade : Vec2 → Color) (pattern : List Vec2) (c : Color)
    (hne : pattern ≠ []) (hconst : ∀ o ∈ pattern, shade o = c) :
    renderPixelWith shade pattern
      = Color.new (Real.sqrt c.r) (Real.sqrt c.g) (Real.sqrt c.b) 1 := by
  have hlen : (pattern.length : ℝ) ≠ 0 := by
    simp only [ne_eq, Nat.cast_eq_zero, List.length_eq_zero]
    exact hne
  have hmap : ∀ x ∈ pattern.map shade, x = c := by
    intro x hx
    obtain ⟨o, ho, rfl⟩ := List.mem_map.mp hx
    exact hconst o ho
  obtain ⟨h1, h2, h3, _⟩ :=
    color_foldl_const (pattern.map shade) c (Color.new 0 0 0 1) hmap
  unfold renderPixelWith sampleOffsets Color.sum
  dsimp only
  rw [h1, h2, h3]
  simp only [List.length_map, Color.new_r, Color.new_g, Color.new_b]
  congr 1 <;> (rw [zero_add, mul_comm, mul_div_assoc, div_self hlen, mul_one])

/-- Witness for C4 at a one-sample pattern with constant color `1/4`. -/
theorem render_pixel_constant_witness :
    renderPixelWith (fun _ => Color.new (1 / 4) (1 / 4) (1 / 4) 1) [⟨1 / 2, 1 / 2⟩]
      = Color.new (Real.sqrt (1 / 4)) (Real.sqrt (1 / 4)) (Real.sqrt (1 / 4)) 1 :=
  render_pixel_constant _ _ _ (by simp) fun o _ => rfl

/-- Counterexample to C4 as stated: with a single sample of the constant
color `1/4`, `render_pixel` returns `1/2` per channel (the square root), not
the constant color itself. -/
theorem render_pixel_constant_counterexample :
    renderPixelWith (fun _ => Color.new (1 / 4) (1 / 4) (1 / 4) 1) [⟨1 / 2, 1 / 2⟩]
      ≠ Color.new (1 / 4) (1 / 4) (1 / 4) 1 := by
  have heval : renderPixelWith (fun _ => Color.new (1 / 4) (1 / 4) (1 / 4) 1)
      [⟨1 / 2, 1 / 2⟩] = Color.new (1 / 2) (1 / 2) (1 / 2) 1 := by
    unfold renderPixelWith sampleOffsets Color.sum
    norm_num [sqrt_quarter, sqrt_four]
  rw [heval]
  intro hcon
  have := congrArg Color.r hcon
  simp only [Color.new_r] at this
  norm_num at this

/-! ## Theorems: construction validation -/

/-- C5 (amended): the code's constructors perform no validation — a sphere
with non-positive radius, a dielectric with non-positive index and the empty
sample pattern are all accepted unchanged, while the spec-mandated checked
constructors reject them. -/
theorem construction_unchecked (center : Vec3) (radius idx : ℝ) (pattern : List Vec2)
    (hr : radius ≤ 0) (hidx : idx ≤ 0) :
    Sphere.new center radius = { center := center, radius := radius } ∧
    sphereNewChecked center radius = none ∧
    Material.dielectric idx = Material.Dielectric idx ∧
    dielectricChecked idx = none ∧
    sampleOffsets pattern = pattern ∧
    patternChecked [] = none := by
  refine ⟨rfl, ?_, rfl, ?_, rfl, rfl⟩
  · unfold sphereNewChecked
    rw [if_pos hr]
  · unfold dielectricChecked
    rw [if_pos hidx]

/-- Witness for C5 at radius `-1`, index `-1`, empty pattern. -/
theorem construction_unchecked_witness :
    Sphere.new ⟨0, 0, 0⟩ (-1) = { center := ⟨0, 0, 0⟩, radius := -1 } ∧
    sphereNewChecked ⟨0, 0, 0⟩ (-1) = none ∧
    Material.dielectric (-1) = Material.Dielectric (-1) ∧
    dielectricChecked (-1) = none ∧
    sampleOffsets ([] : List Vec2) = [] ∧
    patternChecked [] = none :=
  construction_unchecked ⟨0, 0, 0⟩ (-1) (-1) [] (by norm_num) (by norm_num)

/-- Counterexample to C5 as stated: constructing a sphere of radius `-1`, a
dielectric of index `-1` and an empty sample pattern all succeed — the code
rejects none of them, unlike the spec-mandated checked constructors. -/
theorem construction_accepts_malformed :
    (Sphere.new ⟨0, 0, 0⟩ (-1)).radius = -1 ∧
    sphereNewChecked ⟨0, 0, 0⟩ (-1) = none ∧
    Material.dielectric (-1) = Material.Dielectric (-1) ∧
    dielectricChecked (-1) = none ∧
    sampleOffsets ([] : List Vec2) = [] := by
  refine ⟨rfl, ?_, rfl, ?_, rfl⟩
  · unfold sphereNewChecked
    rw [if_pos (by norm_num : (-1 : ℝ) ≤ 0)]
  · unfold dielectricChecked
    rw [if_pos (by norm_num : (-1 : ℝ) ≤ 0)]

/-! ## Theorems: 8-bit pixel conversion -/

/-- C9 (amended): the float-to-`u8` conversion truncates: it maps `v` to
`floor(clamp(v,0,1) * 255)` (Rust's `as u8` truncates toward zero), with
values below 0 mapping to 0 and above 1 to 255. -/
theorem normalize_truncates (v : ℝ) :
    normalize v = Int.toNat ⌊clamp01 v * 255⌋ ∧
    (v ≤ 0 → normalize v = 0) ∧
    (1 ≤ v → normalize v = 255) := by
  have hc0 : 0 ≤ clamp01 v := le_max_left _ _
  have hc1 : clamp01 v ≤ 1 := max_le zero_le_one (min_le_right _ _)
  refine ⟨?_, ?_, ?_⟩
  · unfold normalize f32AsU8
    congr 1
    apply min_eq_right
    have h255 : clamp01 v * 255 ≤ 255 := by nlinarith
    calc ⌊clamp01 v * 255⌋ ≤ ⌊(255 : ℝ)⌋ := Int.floor_le_floor h255
      _ = 255 := by norm_num
  · intro hv
    have hcl : clamp01 v = 0 := by
      unfold clamp01
      exact max_eq_left (le_trans (min_le_left _ _) hv)
    unfold normalize f32AsU8
    rw [hcl]
    norm_num
  · intro hv
    have hcl : clamp01 v = 1 := by
      unfold clamp01
      rw [min_eq_right hv]
      exact max_eq_right zero_le_one
    unfold normalize f32AsU8
    rw [hcl]
    have h1 : ⌊(1 : ℝ) * 255⌋ = 255 := by norm_num
    rw [h1]
    decide

/-- Witness for C9 at `v = -1` and `v = 2`. -/
theorem normalize_truncates_witness :
    normalize (-1) = 0 ∧ normalize 2 = 255 :=
  ⟨(normalize_truncates (-1)).2.1 (by norm_num),
   (normalize_truncates 2).2.2 (by norm_num)⟩

/-- Counterexample to C9 as stated: at channel value `0.999` the code yields
`254` (truncation of `254.745`) where round-to-nearest yields `255`. -/
theorem normalize_not_round :
    normalize (999 / 1000) = 254 ∧ normalizeSpec (999 / 1000) = 255 := by
  have hcl : clamp01 (999 / 1000 : ℝ) = 999 / 1000 := by
    unfold clamp01
    rw [min_eq_left (by norm_num), max_eq_right (by norm_num)]
  have hfl : ⌊(999 / 1000 : ℝ) * 255⌋ = 254 := by
    rw [Int.floor_eq_iff]
    constructor <;> norm_num
  have hrd : round ((999 / 1000 : ℝ) * 255) = 255 := by
    rw [round_eq]
    rw [show (999 / 1000 : ℝ) * 255 + 1 / 2 = 51049 / 200 by norm_num]
    rw [Int.floor_eq_iff]
    constructor <;> norm_num
  constructor
  · unfold normalize f32AsU8
    rw [hcl, hfl]
    decide
  · unfold normalizeSpec
    rw [hcl, hrd]
    decide

end RayTracing
